import Mathlib

/-!
Verification of the model-selection evaluation harness specified for the
`introduction_to_ml` repository (notebook `04.ModelSelection/01.ModelSelection.ipynb`).

The notebook delegates splitting and hyper-parameter search to a third-party
library, so the harness itself (Splitter, CrossValidator, SearchDriver) is not
present as source code; the definitions below embed it faithfully from the
specification's wording, and the `report` utility is embedded from the notebook
cell that defines it.
-/

namespace ModelSelection

/-- Modelled from the spec: the "seeded pseudo-random permutation" used by the
shuffling splitters.  A linear congruential generator supplies the pseudo-random
draws (the spec leaves the generator itself abstract, requiring only that it be
seeded and deterministic). -/
def lcgNext (s : Nat) : Nat := (1664525 * s + 1013904223) % 4294967296

/-- Fisher-Yates shuffle driven by `lcgNext`, with explicit fuel so the
recursion is structural: at each step the pseudo-random draw selects one
remaining element, which is removed and emitted. -/
def fyAux : Nat → List Nat → Nat → List Nat
  | 0, _, _ => []
  | _ + 1, [], _ => []
  | fuel + 1, x :: xs, s =>
    (x :: xs).getD (s % (x :: xs).length) 0 ::
      fyAux fuel ((x :: xs).eraseIdx (s % (x :: xs).length)) (lcgNext s)

/-- Modelled from the spec: the seeded pseudo-random permutation of a list of
indices. -/
def shuffleList (l : List Nat) (seed : Nat) : List Nat :=
  fyAux l.length l (lcgNext seed)

/-- A Split is a pair (train_indices, test_indices) over sample positions. -/
structure Split where
  train : List Nat
  test : List Nat
deriving DecidableEq, Inhabited, Repr

/-- Error taxonomy of the harness: malformed split parameters. -/
inductive SplitError where
  | invalidArgument
deriving DecidableEq, Repr

/-- Modelled from the spec: the near-equal k-fold group sizes — each fold gets
`n / k` samples and the first `n % k` folds get one extra, so sizes differ by
at most 1. -/
def foldSizes (n k : Nat) : List Nat :=
  (List.range k).map (fun i => n / k + if i < n % k then 1 else 0)

/-- Splits a list into consecutive groups of the given sizes. -/
def chunks {α : Type} : List Nat → List α → List (List α)
  | [], _ => []
  | s :: ss, l => l.take s :: chunks ss (l.drop s)

/-- Modelled from the spec: the permutation k-fold works over — the identity
order, or the seeded pseudo-random permutation when `shuffle` is set. -/
def kfoldPerm (n : Nat) (shuffle : Bool) (seed : Nat) : List Nat :=
  if shuffle then shuffleList (List.range n) seed else List.range n

/-- The contiguous groups of near-equal size that k-fold carves the (possibly
permuted) indices into. -/
def kfoldChunks (n k : Nat) (shuffle : Bool) (seed : Nat) : List (List Nat) :=
  chunks (foldSizes n k) (kfoldPerm n shuffle seed)

/-- Modelled from the spec: the k folds of `k_fold_splits` — partition the
(possibly permuted) indices into k contiguous groups of near-equal size; for
fold i, test = group i and train = all other groups. -/
def kfoldFolds (n k : Nat) (shuffle : Bool) (seed : Nat) : List Split :=
  (List.range k).map (fun i =>
    ⟨((kfoldChunks n k shuffle seed).eraseIdx i).flatten,
     (kfoldChunks n k shuffle seed).getD i []⟩)

/-- Modelled from the spec: `k_fold_splits(n_samples, k, shuffle, seed)`, which
fails with `InvalidArgument` if `k < 2` or `k > n_samples`. -/
def k_fold_splits (n k : Nat) (shuffle : Bool) (seed : Nat) :
    Except SplitError (List Split) :=
  if 2 ≤ k ∧ k ≤ n then .ok (kfoldFolds n k shuffle seed) else .error .invalidArgument

/-! ### Permutation facts about the shuffle -/

theorem getD_cons_eraseIdx_perm :
    ∀ (l : List Nat) (j : Nat), j < l.length → (l.getD j 0 :: l.eraseIdx j).Perm l := by
  intro l
  induction l with
  | nil => intro j h; simp at h
  | cons a t ih =>
    intro j hj
    cases j with
    | zero => simp [List.eraseIdx]
    | succ j =>
      simp only [List.length_cons, Nat.succ_lt_succ_iff] at hj
      have h1 := ih j hj
      have h2 : (t.getD j 0 :: a :: t.eraseIdx j).Perm (a :: t.getD j 0 :: t.eraseIdx j) :=
        List.Perm.swap _ _ _
      have h3 : ((a :: t).getD (j + 1) 0 :: (a :: t).eraseIdx (j + 1))
          = t.getD j 0 :: a :: t.eraseIdx j := by simp [List.eraseIdx, List.getD]
      rw [h3]
      exact h2.trans (h1.cons a)

theorem fyAux_perm :
    ∀ (fuel : Nat) (l : List Nat) (s : Nat), l.length ≤ fuel → (fyAux fuel l s).Perm l := by
  intro fuel
  induction fuel with
  | zero =>
    intro l s h
    cases l with
    | nil => simp [fyAux]
    | cons a t => simp at h
  | succ fuel ih =>
    intro l s h
    cases l with
    | nil => simp [fyAux]
    | cons a t =>
      have hlen : 0 < (a :: t).length := by simp
      have hj : s % (a :: t).length < (a :: t).length := Nat.mod_lt _ hlen
      have herase : ((a :: t).eraseIdx (s % (a :: t).length)).length ≤ fuel := by
        rw [List.length_eraseIdx]
        simp only [hj, if_true]
        simp only [List.length_cons] at h ⊢
        omega
      have hperm := ih ((a :: t).eraseIdx (s % (a :: t).length)) (lcgNext s) herase
      have hstep : fyAux (fuel + 1) (a :: t) s
          = (a :: t).getD (s % (a :: t).length) 0 ::
              fyAux fuel ((a :: t).eraseIdx (s % (a :: t).length)) (lcgNext s) := by
        simp [fyAux]
      rw [hstep]
      exact (hperm.cons _).trans (getD_cons_eraseIdx_perm _ _ hj)

theorem shuffleList_perm (l : List Nat) (seed : Nat) : (shuffleList l seed).Perm l :=
  fyAux_perm l.length l (lcgNext seed) (le_refl _)

theorem kfoldPerm_perm (n : Nat) (shuffle : Bool) (seed : Nat) :
    (kfoldPerm n shuffle seed).Perm (List.range n) := by
  unfold kfoldPerm
  cases shuffle with
  | false => simp
  | true => simpa using shuffleList_perm (List.range n) seed

theorem kfoldPerm_length (n : Nat) (shuffle : Bool) (seed : Nat) :
    (kfoldPerm n shuffle seed).length = n := by
  have := (kfoldPerm_perm n shuffle seed).length_eq
  simpa using this

theorem kfoldPerm_nodup (n : Nat) (shuffle : Bool) (seed : Nat) :
    (kfoldPerm n shuffle seed).Nodup :=
  (kfoldPerm_perm n shuffle seed).nodup_iff.mpr (List.nodup_range n)

theorem mem_kfoldPerm (n : Nat) (shuffle : Bool) (seed : Nat) (x : Nat) :
    x ∈ kfoldPerm n shuffle seed ↔ x < n := by
  rw [(kfoldPerm_perm n shuffle seed).mem_iff, List.mem_range]

/-! ### Fold sizes and chunking -/

theorem sum_range_map_ite (q r : Nat) :
    ∀ m : Nat, (((List.range m).map (fun i => q + if i < r then 1 else 0)).sum)
      = m * q + min m r := by
  intro m
  induction m with
  | zero => simp
  | succ m ih =>
    rw [List.range_succ, List.map_append, List.sum_append, ih]
    by_cases h : m < r <;> simp [h, Nat.succ_mul] <;> omega

theorem foldSizes_sum (n k : Nat) (hk : 1 ≤ k) : (foldSizes n k).sum = n := by
  unfold foldSizes
  rw [sum_range_map_ite]
  have hmod : n % k < k := Nat.mod_lt _ hk
  have hmin : min k (n % k) = n % k := by omega
  rw [hmin]
  have := Nat.div_add_mod n k
  omega

theorem foldSizes_length (n k : Nat) : (foldSizes n k).length = k := by
  simp [foldSizes]

theorem foldSizes_getD (n k i : Nat) (hi : i < k) :
    (foldSizes n k).getD i 0 = n / k + if i < n % k then 1 else 0 := by
  have hlen : i < (foldSizes n k).length := by rw [foldSizes_length]; exact hi
  rw [List.getD_eq_getElem _ _ hlen]
  unfold foldSizes
  simp

theorem chunks_flatten {α : Type} :
    ∀ (ss : List Nat) (l : List α), (chunks ss l).flatten = l.take ss.sum := by
  intro ss
  induction ss with
  | nil => intro l; simp [chunks]
  | cons s ss ih =>
    intro l
    simp only [chunks, List.flatten_cons, ih, List.sum_cons]
    rw [List.take_add]

theorem chunks_length {α : Type} :
    ∀ (ss : List Nat) (l : List α), (chunks ss l).length = ss.length := by
  intro ss
  induction ss with
  | nil => intro l; simp [chunks]
  | cons s ss ih => intro l; simp [chunks, ih]

theorem chunks_getD_length {α : Type} :
    ∀ (ss : List Nat) (l : List α) (i : Nat), ss.sum ≤ l.length → i < ss.length →
      ((chunks ss l).getD i []).length = ss.getD i 0 := by
  intro ss
  induction ss with
  | nil => intro l i _ hi; simp at hi
  | cons s ss ih =>
    intro l i hsum hi
    cases i with
    | zero =>
      simp only [chunks, List.getD_cons_zero, List.length_take, List.sum_cons] at *
      omega
    | succ i =>
      simp only [chunks, List.getD_cons_succ, List.sum_cons, List.length_cons,
        Nat.succ_lt_succ_iff] at *
      apply ih
      · rw [List.length_drop]; omega
      · exact hi

/-! ### Generic facts about flattening, `getD` and `eraseIdx` -/

theorem mem_getD_flatten {α : Type} :
    ∀ (css : List (List α)) (i : Nat) (x : α), x ∈ css.getD i [] → x ∈ css.flatten := by
  intro css
  induction css with
  | nil => intro i x hx; simp [List.getD] at hx
  | cons c cs ih =>
    intro i x hx
    cases i with
    | zero =>
      simp only [List.getD_cons_zero] at hx
      simp [List.flatten_cons, hx]
    | succ i =>
      simp only [List.getD_cons_succ] at hx
      simp [List.flatten_cons, ih i x hx]

theorem not_mem_eraseIdx_flatten_of_mem_getD {α : Type} :
    ∀ (css : List (List α)) (i : Nat) (x : α), css.flatten.Nodup →
      x ∈ css.getD i [] → x ∈ (css.eraseIdx i).flatten → False := by
  intro css
  induction css with
  | nil => intro i x _ hx _; simp [List.getD] at hx
  | cons c cs ih =>
    intro i x hnd hx hmem
    rw [List.flatten_cons, List.nodup_append] at hnd
    obtain ⟨hndc, hndcs, hdisj⟩ := hnd
    cases i with
    | zero =>
      simp only [List.getD_cons_zero] at hx
      simp only [List.eraseIdx_cons_zero] at hmem
      exact hdisj hx hmem
    | succ i =>
      simp only [List.getD_cons_succ] at hx
      simp only [List.eraseIdx_cons_succ, List.flatten_cons, List.mem_append] at hmem
      cases hmem with
      | inl hc => exact hdisj hc (mem_getD_flatten cs i x hx)
      | inr hrest => exact ih i x hndcs hx hrest

theorem mem_eraseIdx_flatten_of_mem_getD_ne {α : Type} :
    ∀ (css : List (List α)) (i j : Nat) (x : α), j ≠ i →
      x ∈ css.getD j [] → x ∈ (css.eraseIdx i).flatten := by
  intro css
  induction css with
  | nil => intro i j x _ hx; simp [List.getD] at hx
  | cons c cs ih =>
    intro i j x hne hx
    cases i with
    | zero =>
      cases j with
      | zero => exact absurd rfl hne
      | succ j =>
        simp only [List.getD_cons_succ] at hx
        simp only [List.eraseIdx_cons_zero]
        exact mem_getD_flatten cs j x hx
    | succ i =>
      simp only [List.eraseIdx_cons_succ, List.flatten_cons, List.mem_append]
      cases j with
      | zero =>
        simp only [List.getD_cons_zero] at hx
        exact Or.inl hx
      | succ j =>
        simp only [List.getD_cons_succ] at hx
        have hne' : j ≠ i := by omega
        exact Or.inr (ih i j x hne' hx)

theorem map_eraseIdx {α β : Type} (f : α → β) :
    ∀ (l : List α) (i : Nat), (l.eraseIdx i).map f = (l.map f).eraseIdx i := by
  intro l
  induction l with
  | nil => intro i; simp
  | cons a t ih =>
    intro i
    cases i with
    | zero => simp
    | succ i => simp [List.eraseIdx_cons_succ, ih]

theorem sum_eraseIdx_add_getD :
    ∀ (l : List Nat) (i : Nat), i < l.length →
      (l.eraseIdx i).sum + l.getD i 0 = l.sum := by
  intro l
  induction l with
  | nil => intro i hi; simp at hi
  | cons a t ih =>
    intro i hi
    cases i with
    | zero => simp [List.eraseIdx_cons_zero]; omega
    | succ i =>
      simp only [List.length_cons, Nat.succ_lt_succ_iff] at hi
      simp only [List.eraseIdx_cons_succ, List.sum_cons, List.getD_cons_succ]
      have := ih i hi
      omega

/-! ### k-fold structure lemmas -/

theorem kfoldChunks_length (n k : Nat) (sh : Bool) (s : Nat) :
    (kfoldChunks n k sh s).length = k := by
  unfold kfoldChunks
  rw [chunks_length, foldSizes_length]

theorem kfoldChunks_flatten (n k : Nat) (sh : Bool) (s : Nat) (hk : 1 ≤ k) :
    (kfoldChunks n k sh s).flatten = kfoldPerm n sh s := by
  unfold kfoldChunks
  rw [chunks_flatten, foldSizes_sum n k hk]
  exact List.take_of_length_le (by rw [kfoldPerm_length])

theorem kfoldChunks_flatten_nodup (n k : Nat) (sh : Bool) (s : Nat)
    (hk : 1 ≤ k) : (kfoldChunks n k sh s).flatten.Nodup := by
  rw [kfoldChunks_flatten n k sh s hk]
  exact kfoldPerm_nodup n sh s

theorem kfoldFolds_length (n k : Nat) (sh : Bool) (s : Nat) :
    (kfoldFolds n k sh s).length = k := by
  simp [kfoldFolds]

theorem kfoldFolds_getD (n k : Nat) (sh : Bool) (s : Nat) (i : Nat) (hi : i < k) :
    (kfoldFolds n k sh s).getD i default =
      ⟨((kfoldChunks n k sh s).eraseIdx i).flatten, (kfoldChunks n k sh s).getD i []⟩ := by
  have hlen : i < (kfoldFolds n k sh s).length := by rw [kfoldFolds_length]; exact hi
  rw [List.getD_eq_getElem _ _ hlen]
  simp [kfoldFolds]

theorem mem_kfoldFolds (n k : Nat) (sh : Bool) (s : Nat) (sp : Split) :
    sp ∈ kfoldFolds n k sh s ↔ ∃ i, i < k ∧
      sp = ⟨((kfoldChunks n k sh s).eraseIdx i).flatten,
            (kfoldChunks n k sh s).getD i []⟩ := by
  simp only [kfoldFolds, List.mem_map, List.mem_range]
  constructor
  · rintro ⟨i, hi, rfl⟩; exact ⟨i, hi, rfl⟩
  · rintro ⟨i, hi, rfl⟩; exact ⟨i, hi, rfl⟩

theorem kfold_test_length (n k : Nat) (sh : Bool) (s : Nat) (i : Nat)
    (hk : 1 ≤ k) (hi : i < k) :
    ((kfoldChunks n k sh s).getD i []).length = n / k + if i < n % k then 1 else 0 := by
  unfold kfoldChunks
  rw [chunks_getD_length]
  · exact foldSizes_getD n k i hi
  · rw [foldSizes_sum n k hk, kfoldPerm_length]
  · rw [foldSizes_length]; exact hi

theorem kfold_train_add_test_length (n k : Nat) (sh : Bool) (s : Nat) (i : Nat)
    (hk : 1 ≤ k) (hi : i < k) :
    (((kfoldChunks n k sh s).eraseIdx i).flatten).length
      + ((kfoldChunks n k sh s).getD i []).length = n := by
  have hlen : i < (kfoldChunks n k sh s).length := by
    rw [kfoldChunks_length]; exact hi
  rw [List.length_flatten, map_eraseIdx]
  have hmaplen : i < ((kfoldChunks n k sh s).map List.length).length := by
    rw [List.length_map]; exact hlen
  have hgetD : ((kfoldChunks n k sh s).map List.length).getD i 0
      = ((kfoldChunks n k sh s).getD i []).length := by
    rw [List.getD_eq_getElem _ _ hmaplen, List.getD_eq_getElem _ _ hlen, List.getElem_map]
  rw [← hgetD]
  rw [sum_eraseIdx_add_getD _ _ hmaplen]
  rw [← List.length_flatten, kfoldChunks_flatten n k sh s hk, kfoldPerm_length]

/-- C1: for every `n_samples` and `k` with `2 ≤ k ≤ n_samples`,
`k_fold_splits n_samples k shuffle seed` succeeds and returns exactly `k`
splits whose test sets are pairwise disjoint, whose test-set union equals
`[0, n_samples)`, whose test-set sizes differ by at most 1, and in which every
split's train set is disjoint from its test set; in particular
`k_fold_splits 150 5 true 0` yields 5 folds each with 30 test samples and 120
train samples. -/
theorem claim_C1_kfold_partition :
    (∀ (n k : Nat) (sh : Bool) (seed : Nat), 2 ≤ k → k ≤ n →
      k_fold_splits n k sh seed = Except.ok (kfoldFolds n k sh seed) ∧
      (kfoldFolds n k sh seed).length = k ∧
      (∀ i j, i < k → j < k → i ≠ j →
        ((kfoldFolds n k sh seed).getD i default).test.Disjoint
          ((kfoldFolds n k sh seed).getD j default).test) ∧
      (∀ x, (∃ sp ∈ kfoldFolds n k sh seed, x ∈ sp.test) ↔ x < n) ∧
      (∀ sp1 ∈ kfoldFolds n k sh seed, ∀ sp2 ∈ kfoldFolds n k sh seed,
        sp1.test.length ≤ sp2.test.length + 1) ∧
      (∀ sp ∈ kfoldFolds n k sh seed, sp.train.Disjoint sp.test)) ∧
    ((kfoldFolds 150 5 true 0).length = 5 ∧
      ∀ sp ∈ kfoldFolds 150 5 true 0, sp.test.length = 30 ∧ sp.train.length = 120) := by
  constructor
  · intro n k sh seed hk2 hkn
    have hk1 : 1 ≤ k := by omega
    have hnd := kfoldChunks_flatten_nodup n k sh seed hk1
    refine ⟨?_, kfoldFolds_length n k sh seed, ?_, ?_, ?_, ?_⟩
    · unfold k_fold_splits
      rw [if_pos ⟨hk2, hkn⟩]
    · intro i j hi hj hij
      rw [kfoldFolds_getD n k sh seed i hi, kfoldFolds_getD n k sh seed j hj]
      intro x hxi hxj
      exact not_mem_eraseIdx_flatten_of_mem_getD _ i x hnd hxi
        (mem_eraseIdx_flatten_of_mem_getD_ne _ i j x (fun h => hij h.symm) hxj)
    · intro x
      constructor
      · rintro ⟨sp, hsp, hx⟩
        rw [mem_kfoldFolds] at hsp
        obtain ⟨i, hi, rfl⟩ := hsp
        have hx' := mem_getD_flatten _ i x hx
        rw [kfoldChunks_flatten n k sh seed hk1] at hx'
        exact (mem_kfoldPerm n sh seed x).mp hx'
      · intro hx
        have hx' : x ∈ (kfoldChunks n k sh seed).flatten := by
          rw [kfoldChunks_flatten n k sh seed hk1]
          exact (mem_kfoldPerm n sh seed x).mpr hx
        rw [List.mem_flatten] at hx'
        obtain ⟨c, hc, hxc⟩ := hx'
        rw [List.mem_iff_getElem] at hc
        obtain ⟨i, hilen, rfl⟩ := hc
        have hik : i < k := by
          rw [kfoldChunks_length] at hilen
          exact hilen
        refine ⟨⟨((kfoldChunks n k sh seed).eraseIdx i).flatten,
          (kfoldChunks n k sh seed).getD i []⟩, ?_, ?_⟩
        · rw [mem_kfoldFolds]
          exact ⟨i, hik, rfl⟩
        · show x ∈ (kfoldChunks n k sh seed).getD i []
          rw [List.getD_eq_getElem _ _ hilen]
          exact hxc
    · intro sp1 h1 sp2 h2
      rw [mem_kfoldFolds] at h1 h2
      obtain ⟨i, hi, rfl⟩ := h1
      obtain ⟨j, hj, rfl⟩ := h2
      have l1 := kfold_test_length n k sh seed i hk1 hi
      have l2 := kfold_test_length n k sh seed j hk1 hj
      show ((kfoldChunks n k sh seed).getD i []).length
        ≤ ((kfoldChunks n k sh seed).getD j []).length + 1
      rw [l1, l2]
      split_ifs <;> omega
    · intro sp hsp
      rw [mem_kfoldFolds] at hsp
      obtain ⟨i, hi, rfl⟩ := hsp
      intro x hxtrain hxtest
      exact not_mem_eraseIdx_flatten_of_mem_getD _ i x hnd hxtest hxtrain
  · refine ⟨kfoldFolds_length 150 5 true 0, ?_⟩
    intro sp hsp
    rw [mem_kfoldFolds] at hsp
    obtain ⟨i, hi, rfl⟩ := hsp
    have l1 := kfold_test_length 150 5 true 0 i (by decide) hi
    have hsum := kfold_train_add_test_length 150 5 true 0 i (by decide) hi
    have hdiv : (150 : Nat) / 5 = 30 := by decide
    have hmod : (150 : Nat) % 5 = 0 := by decide
    rw [hdiv, hmod] at l1
    simp only [Nat.not_lt_zero, if_false] at l1
    have htest : ((kfoldChunks 150 5 true 0).getD i []).length = 30 := l1
    refine ⟨htest, ?_⟩
    show (((kfoldChunks 150 5 true 0).eraseIdx i).flatten).length = 120
    omega

/-- Witness for C1: the theorem instantiated at `n = 6`, `k = 3`,
`shuffle = false`, `seed = 0`. -/
theorem claim_C1_kfold_partition_witness :
    k_fold_splits 6 3 false 0 = Except.ok (kfoldFolds 6 3 false 0) ∧
    (kfoldFolds 6 3 false 0).length = 3 :=
  ⟨(claim_C1_kfold_partition.1 6 3 false 0 (by decide) (by decide)).1,
   (claim_C1_kfold_partition.1 6 3 false 0 (by decide) (by decide)).2.1⟩

/-! ### Time-series split -/

/-- Modelled from the spec: the common test-chunk size of the time-series
split — the boundaries divide `[0, n)` into `k + 1` nearly-equal contiguous
chunks. -/
def tsTestSize (n k : Nat) : Nat := n / (k + 1)

/-- Modelled from the spec: end of fold 1's training range — the first chunk
(including all surplus samples) is folded into fold 1's training set. -/
def tsFirstTrainEnd (n k : Nat) : Nat := n - k * tsTestSize n k

/-- Modelled from the spec: the folds of `time_series_splits` — for fold i,
train = `[0, boundary_i)` and test = the next chunk `[boundary_i, boundary_i+1)`. -/
def tsFolds (n k : Nat) : List Split :=
  (List.range k).map (fun i =>
    ⟨List.range (tsFirstTrainEnd n k + i * tsTestSize n k),
     List.range' (tsFirstTrainEnd n k + i * tsTestSize n k) (tsTestSize n k)⟩)

/-- Modelled from the spec: `time_series_splits(n_samples, k)`, which fails if
`k < 1` or `n_samples < k + 1`. -/
def time_series_splits (n k : Nat) : Except SplitError (List Split) :=
  if 1 ≤ k ∧ k + 1 ≤ n then .ok (tsFolds n k) else .error .invalidArgument

theorem tsFolds_length (n k : Nat) : (tsFolds n k).length = k := by
  simp [tsFolds]

theorem tsFolds_getD (n k i : Nat) (hi : i < k) :
    (tsFolds n k).getD i default =
      ⟨List.range (tsFirstTrainEnd n k + i * tsTestSize n k),
       List.range' (tsFirstTrainEnd n k + i * tsTestSize n k) (tsTestSize n k)⟩ := by
  have hlen : i < (tsFolds n k).length := by rw [tsFolds_length]; exact hi
  rw [List.getD_eq_getElem _ _ hlen]
  simp [tsFolds]

theorem tsTestSize_pos (n k : Nat) (hn : k + 1 ≤ n) : 1 ≤ tsTestSize n k := by
  unfold tsTestSize
  exact (Nat.one_le_div_iff (by omega)).mpr hn

/-- C4: for every `n_samples ≥ k + 1` and `k ≥ 1`, `time_series_splits` yields
`k` folds whose test index ranges are contiguous, strictly increasing and
non-overlapping, and whose train sets are nested with fold i's train a strict
subset of fold i+1's; in particular `time_series_splits 6 3` yields exactly
train `[0,1,2]` / test `[3]`, train `[0,1,2,3]` / test `[4]`, and train
`[0,1,2,3,4]` / test `[5]`. -/
theorem claim_C4_time_series :
    (∀ (n k : Nat), 1 ≤ k → k + 1 ≤ n →
      time_series_splits n k = Except.ok (tsFolds n k) ∧
      (tsFolds n k).length = k ∧
      (∀ i, i < k → ((tsFolds n k).getD i default).test
        = List.range' (tsFirstTrainEnd n k + i * tsTestSize n k) (tsTestSize n k)) ∧
      (∀ i j, i < j → j < k →
        ∀ x ∈ ((tsFolds n k).getD i default).test,
          ∀ y ∈ ((tsFolds n k).getD j default).test, x < y) ∧
      (∀ i, i + 1 < k →
        (∀ x ∈ ((tsFolds n k).getD i default).train,
          x ∈ ((tsFolds n k).getD (i + 1) default).train) ∧
        ∃ y, y ∈ ((tsFolds n k).getD (i + 1) default).train ∧
          y ∉ ((tsFolds n k).getD i default).train)) ∧
    time_series_splits 6 3 =
      Except.ok [⟨[0, 1, 2], [3]⟩, ⟨[0, 1, 2, 3], [4]⟩, ⟨[0, 1, 2, 3, 4], [5]⟩] := by
  constructor
  · intro n k hk hn
    have hts : 1 ≤ tsTestSize n k := tsTestSize_pos n k hn
    refine ⟨?_, tsFolds_length n k, ?_, ?_, ?_⟩
    · unfold time_series_splits
      rw [if_pos ⟨hk, hn⟩]
    · intro i hi
      rw [tsFolds_getD n k i hi]
    · intro i j hij hj xx hx y hy
      have hi : i < k := by omega
      rw [tsFolds_getD n k i hi] at hx
      rw [tsFolds_getD n k j hj] at hy
      show xx < y
      simp only [List.mem_range'] at hx hy
      obtain ⟨a, ha, rfl⟩ := hx
      obtain ⟨b, hb, rfl⟩ := hy
      have hmul : (i + 1) * tsTestSize n k ≤ j * tsTestSize n k :=
        Nat.mul_le_mul_right _ (by omega)
      rw [Nat.succ_mul] at hmul
      omega
    · intro i hi1
      have hi : i < k := by omega
      rw [tsFolds_getD n k i hi, tsFolds_getD n k (i + 1) hi1]
      constructor
      · intro x hx
        show x ∈ List.range (tsFirstTrainEnd n k + (i + 1) * tsTestSize n k)
        simp only [List.mem_range] at hx ⊢
        rw [Nat.succ_mul]
        omega
      · refine ⟨tsFirstTrainEnd n k + i * tsTestSize n k, ?_, ?_⟩
        · show _ ∈ List.range (tsFirstTrainEnd n k + (i + 1) * tsTestSize n k)
          simp only [List.mem_range]
          rw [Nat.succ_mul]
          omega
        · show _ ∉ List.range (tsFirstTrainEnd n k + i * tsTestSize n k)
          simp
  · rfl

/-- Witness for C4: the theorem instantiated at `n = 6`, `k = 3`. -/
theorem claim_C4_time_series_witness :
    time_series_splits 6 3 = Except.ok (tsFolds 6 3) ∧ (tsFolds 6 3).length = 3 :=
  ⟨(claim_C4_time_series.1 6 3 (by decide) (by decide)).1,
   (claim_C4_time_series.1 6 3 (by decide) (by decide)).2.1⟩

/-! ### Group k-fold -/

/-- The sample indices carrying one group identifier (the "mapping from sample
index to an opaque group identifier" of the spec, with the mapping given as a
list indexed by sample position). -/
def groupIndices (groups : List Nat) (g : Nat) : List Nat :=
  (List.range groups.length).filter (fun i => decide (groups.getD i 0 = g))

/-- Number of samples carrying one group identifier. -/
def groupSize (groups : List Nat) (g : Nat) : Nat := (groupIndices groups g).length

/-- The unique group identifiers, largest group first (stable on ties). -/
def sortedGroups (groups : List Nat) : List Nat :=
  List.insertionSort (fun a b => groupSize groups b ≤ groupSize groups a) groups.dedup

/-- Index of the first minimal element of a list of fold sizes. -/
def minIdx : List Nat → Nat
  | [] => 0
  | [_] => 0
  | a :: b :: rest =>
    if a ≤ (b :: rest).getD (minIdx (b :: rest)) 0 then 0 else minIdx (b :: rest) + 1

/-- Modelled from the spec: one step of the greedy balancing — assign the next
(largest remaining) group to the currently smallest fold.  Folds are kept as
(total size, assigned group identifiers) pairs. -/
def assignStep (folds : List (Nat × List Nat)) (gsz : Nat × Nat) : List (Nat × List Nat) :=
  folds.set (minIdx (folds.map Prod.fst))
    ((folds.getD (minIdx (folds.map Prod.fst)) (0, [])).1 + gsz.2,
     (folds.getD (minIdx (folds.map Prod.fst)) (0, [])).2 ++ [gsz.1])

/-- Modelled from the spec: greedy fold assignment — groups in decreasing size
order, each assigned wholly to the currently smallest of the `k` folds. -/
def assignFolds (groups : List Nat) (k : Nat) : List (Nat × List Nat) :=
  ((sortedGroups groups).map (fun g => (g, groupSize groups g))).foldl assignStep
    (List.replicate k (0, []))

/-- The group identifiers assigned to each fold. -/
def assignGroups (groups : List Nat) (k : Nat) : List (List Nat) :=
  (assignFolds groups k).map Prod.snd

/-- Modelled from the spec: the folds of `group_k_fold_splits` — fold f's test
set is every sample whose group was assigned to fold f, and its train set is
every other sample. -/
def gkfFolds (groups : List Nat) (k : Nat) : List Split :=
  (List.range k).map (fun f =>
    ⟨(List.range groups.length).filter
        (fun i => !((assignGroups groups k).getD f []).contains (groups.getD i 0)),
     (List.range groups.length).filter
        (fun i => ((assignGroups groups k).getD f []).contains (groups.getD i 0))⟩)

/-- Modelled from the spec: `group_k_fold_splits(groups, k)`, which fails with
`InvalidArgument` if the number of unique groups is less than `k`. -/
def group_k_fold_splits (groups : List Nat) (k : Nat) : Except SplitError (List Split) :=
  if groups.dedup.length < k then .error .invalidArgument else .ok (gkfFolds groups k)

theorem gkfFolds_length (groups : List Nat) (k : Nat) : (gkfFolds groups k).length = k := by
  simp [gkfFolds]

theorem gkfFolds_getD (groups : List Nat) (k f : Nat) (hf : f < k) :
    (gkfFolds groups k).getD f default =
      ⟨(List.range groups.length).filter
          (fun i => !((assignGroups groups k).getD f []).contains (groups.getD i 0)),
       (List.range groups.length).filter
          (fun i => ((assignGroups groups k).getD f []).contains (groups.getD i 0))⟩ := by
  have hlen : f < (gkfFolds groups k).length := by rw [gkfFolds_length]; exact hf
  rw [List.getD_eq_getElem _ _ hlen]
  simp [gkfFolds]

theorem mem_gkfFolds (groups : List Nat) (k : Nat) (sp : Split) :
    sp ∈ gkfFolds groups k ↔ ∃ f, f < k ∧
      sp = ⟨(List.range groups.length).filter
              (fun i => !((assignGroups groups k).getD f []).contains (groups.getD i 0)),
            (List.range groups.length).filter
              (fun i => ((assignGroups groups k).getD f []).contains (groups.getD i 0))⟩ := by
  simp only [gkfFolds, List.mem_map, List.mem_range]
  constructor
  · rintro ⟨f, hf, rfl⟩; exact ⟨f, hf, rfl⟩
  · rintro ⟨f, hf, rfl⟩; exact ⟨f, hf, rfl⟩

/-- C5: for every groups mapping and every `k` not exceeding the number of
unique groups, in every fold of `group_k_fold_splits` each group identifier's
sample indices lie entirely on the train side or entirely on the test side;
and `group_k_fold_splits` fails with `InvalidArgument` when the number of
unique groups is less than `k`. -/
theorem claim_C5_group_never_split :
    (∀ (groups : List Nat) (k : Nat), k ≤ groups.dedup.length →
      group_k_fold_splits groups k = Except.ok (gkfFolds groups k) ∧
      ∀ sp ∈ gkfFolds groups k, ∀ g : Nat,
        (∀ i ∈ groupIndices groups g, i ∈ sp.test) ∨
        (∀ i ∈ groupIndices groups g, i ∈ sp.train)) ∧
    (∀ (groups : List Nat) (k : Nat), groups.dedup.length < k →
      group_k_fold_splits groups k = Except.error SplitError.invalidArgument) := by
  constructor
  · intro groups k hk
    constructor
    · unfold group_k_fold_splits
      rw [if_neg (by omega)]
    · intro sp hsp g
      rw [mem_gkfFolds] at hsp
      obtain ⟨f, hf, rfl⟩ := hsp
      by_cases hc : ((assignGroups groups k).getD f []).contains g = true
      · left
        intro i hi
        rw [groupIndices, List.mem_filter] at hi
        obtain ⟨hrange, heq⟩ := hi
        have heq' : groups.getD i 0 = g := by simpa using heq
        show i ∈ (List.range groups.length).filter
          (fun i => ((assignGroups groups k).getD f []).contains (groups.getD i 0))
        rw [List.mem_filter]
        exact ⟨hrange, by rw [heq']; exact hc⟩
      · right
        intro i hi
        rw [groupIndices, List.mem_filter] at hi
        obtain ⟨hrange, heq⟩ := hi
        have heq' : groups.getD i 0 = g := by simpa using heq
        show i ∈ (List.range groups.length).filter
          (fun i => !((assignGroups groups k).getD f []).contains (groups.getD i 0))
        rw [List.mem_filter]
        refine ⟨hrange, ?_⟩
        rw [heq']
        simp only [Bool.not_eq_true'] at *
        simpa using hc
  · intro groups k hlt
    unfold group_k_fold_splits
    rw [if_pos hlt]

/-- Witness for C5: the theorem instantiated at the notebook's example groups
`[2, 2, 2, 3, 3, 3, 4, 4, 4, 4]` with `k = 3`, and at a one-group input with
`k = 2` for the failure branch. -/
theorem claim_C5_group_never_split_witness :
    group_k_fold_splits [2, 2, 2, 3, 3, 3, 4, 4, 4, 4] 3 =
      Except.ok (gkfFolds [2, 2, 2, 3, 3, 3, 4, 4, 4, 4] 3) ∧
    group_k_fold_splits [7] 2 = Except.error SplitError.invalidArgument :=
  ⟨(claim_C5_group_never_split.1 [2, 2, 2, 3, 3, 3, 4, 4, 4, 4] 3 (by decide)).1,
   claim_C5_group_never_split.2 [7] 2 (by decide)⟩

/-! ### Structure of the greedy assignment when unique groups = k -/

theorem minIdx_cons (a : Nat) (l : List Nat) (h : l ≠ []) :
    minIdx (a :: l) = if a ≤ l.getD (minIdx l) 0 then 0 else minIdx l + 1 := by
  cases l with
  | nil => exact absurd rfl h
  | cons b rest => rfl

theorem minIdx_append_zero :
    ∀ (ts zs : List Nat), (∀ t ∈ ts, 1 ≤ t) → minIdx (ts ++ 0 :: zs) = ts.length := by
  intro ts
  induction ts with
  | nil =>
    intro zs _
    cases zs with
    | nil => rfl
    | cons z zs' =>
      show minIdx (0 :: z :: zs') = 0
      rw [minIdx_cons 0 (z :: zs') (by simp)]
      simp
  | cons t ts ih =>
    intro zs hts
    have htail : ts ++ 0 :: zs ≠ [] := by simp
    show minIdx (t :: (ts ++ 0 :: zs)) = ts.length + 1
    rw [minIdx_cons t (ts ++ 0 :: zs) htail]
    have hidx := ih zs (fun x hx => hts x (List.mem_cons_of_mem t hx))
    rw [hidx]
    have hlen : ts.length < (ts ++ 0 :: zs).length := by simp
    have hget : (ts ++ 0 :: zs).getD ts.length 0 = 0 := by
      rw [List.getD_eq_getElem _ _ hlen, List.getElem_append_right (le_refl ts.length)]
      simp
    rw [hget]
    have ht : 1 ≤ t := hts t (List.mem_cons_self t ts)
    rw [if_neg (by omega)]

theorem set_length_append {α : Type} :
    ∀ (l₁ : List α) (a b : α) (l₂ : List α),
      (l₁ ++ a :: l₂).set l₁.length b = l₁ ++ b :: l₂ := by
  intro l₁
  induction l₁ with
  | nil => intro a b l₂; rfl
  | cons x l₁ ih =>
    intro a b l₂
    show x :: ((l₁ ++ a :: l₂).set l₁.length b) = x :: (l₁ ++ b :: l₂)
    rw [ih]

theorem getD_length_append {α : Type} (l₁ : List α) (a : α) (l₂ : List α) (d : α) :
    (l₁ ++ a :: l₂).getD l₁.length d = a := by
  have hlen : l₁.length < (l₁ ++ a :: l₂).length := by simp
  rw [List.getD_eq_getElem _ _ hlen, List.getElem_append_right (le_refl l₁.length)]
  simp

theorem foldl_assignStep_structure :
    ∀ (gsz : List (Nat × Nat)) (done : List (Nat × List Nat)),
      (∀ p ∈ done, 1 ≤ p.1) → (∀ p ∈ gsz, 1 ≤ p.2) →
      gsz.foldl assignStep (done ++ List.replicate gsz.length (0, [])) =
        done ++ gsz.map (fun p => (p.2, [p.1])) := by
  intro gsz
  induction gsz with
  | nil => intro done _ _; simp
  | cons p gsz ih =>
    intro done hdone hsz
    obtain ⟨g, sz⟩ := p
    rw [List.length_cons, List.replicate_succ, List.foldl_cons]
    have hidx : minIdx ((done ++ (0, ([] : List Nat)) ::
        List.replicate gsz.length (0, [])).map Prod.fst) = done.length := by
      rw [List.map_append, List.map_cons, List.map_replicate]
      have := minIdx_append_zero (done.map Prod.fst) (List.replicate gsz.length 0)
        (by intro t ht
            rw [List.mem_map] at ht
            obtain ⟨q, hq, rfl⟩ := ht
            exact hdone q hq)
      rw [this, List.length_map]
    have hget : (done ++ (0, ([] : List Nat)) ::
        List.replicate gsz.length (0, [])).getD done.length (0, []) = (0, []) :=
      getD_length_append done (0, []) (List.replicate gsz.length (0, [])) (0, [])
    have hstep : assignStep (done ++ (0, []) :: List.replicate gsz.length (0, [])) (g, sz)
        = done ++ (sz, [g]) :: List.replicate gsz.length (0, []) := by
      unfold assignStep
      rw [hidx, hget, set_length_append]
      simp
    rw [hstep]
    have hrearr : done ++ (sz, [g]) :: List.replicate gsz.length (0, ([] : List Nat))
        = (done ++ [(sz, [g])]) ++ List.replicate gsz.length (0, []) := by
      simp
    rw [hrearr]
    have hdone' : ∀ q ∈ done ++ [(sz, [g])], 1 ≤ q.1 := by
      intro q hq
      rw [List.mem_append] at hq
      cases hq with
      | inl h => exact hdone q h
      | inr h =>
        rw [List.mem_singleton] at h
        subst h
        exact hsz (g, sz) (List.mem_cons_self _ _)
    have hsz' : ∀ q ∈ gsz, 1 ≤ q.2 := fun q hq => hsz q (List.mem_cons_of_mem _ hq)
    rw [ih (done ++ [(sz, [g])]) hdone' hsz']
    simp

theorem sortedGroups_perm (groups : List Nat) :
    (sortedGroups groups).Perm groups.dedup :=
  List.perm_insertionSort _ _

theorem sortedGroups_length (groups : List Nat) :
    (sortedGroups groups).length = groups.dedup.length :=
  (sortedGroups_perm groups).length_eq

theorem sortedGroups_nodup (groups : List Nat) : (sortedGroups groups).Nodup :=
  (sortedGroups_perm groups).nodup_iff.mpr (List.nodup_dedup groups)

theorem mem_sortedGroups (groups : List Nat) (g : Nat) :
    g ∈ sortedGroups groups ↔ g ∈ groups.dedup :=
  (sortedGroups_perm groups).mem_iff

theorem mem_groupIndices (groups : List Nat) (g i : Nat) :
    i ∈ groupIndices groups g ↔ i < groups.length ∧ groups.getD i 0 = g := by
  unfold groupIndices
  rw [List.mem_filter, List.mem_range]
  simp

theorem groupSize_pos (groups : List Nat) (g : Nat) (hg : g ∈ groups.dedup) :
    1 ≤ groupSize groups g := by
  rw [List.mem_dedup] at hg
  rw [List.mem_iff_getElem] at hg
  obtain ⟨i, hi, hgi⟩ := hg
  have hmem : i ∈ groupIndices groups g := by
    rw [mem_groupIndices]
    exact ⟨hi, by rw [List.getD_eq_getElem _ _ hi]; exact hgi⟩
  exact List.length_pos_of_mem hmem

theorem groupIndices_injective (groups : List Nat) (g g' : Nat) (hg : g ∈ groups.dedup)
    (h : groupIndices groups g = groupIndices groups g') : g = g' := by
  have hpos : 0 < (groupIndices groups g).length := groupSize_pos groups g hg
  obtain ⟨i, hi⟩ := List.exists_mem_of_ne_nil _ (List.length_pos.mp hpos)
  have hi' : i ∈ groupIndices groups g' := h ▸ hi
  rw [mem_groupIndices] at hi hi'
  rw [← hi.2, hi'.2]

theorem assignFolds_eq (groups : List Nat) (k : Nat) (hk : groups.dedup.length = k) :
    assignFolds groups k =
      (sortedGroups groups).map (fun g => (groupSize groups g, [g])) := by
  unfold assignFolds
  have hlen : ((sortedGroups groups).map (fun g => (g, groupSize groups g))).length = k := by
    rw [List.length_map, sortedGroups_length, hk]
  have hpos : ∀ p ∈ (sortedGroups groups).map (fun g => (g, groupSize groups g)),
      1 ≤ p.2 := by
    intro p hp
    rw [List.mem_map] at hp
    obtain ⟨g, hg, rfl⟩ := hp
    exact groupSize_pos groups g ((mem_sortedGroups groups g).mp hg)
  have := foldl_assignStep_structure
    ((sortedGroups groups).map (fun g => (g, groupSize groups g))) [] (by simp) hpos
  rw [hlen] at this
  simpa [List.map_map, Function.comp] using this

theorem assignGroups_eq (groups : List Nat) (k : Nat) (hk : groups.dedup.length = k) :
    assignGroups groups k = (sortedGroups groups).map (fun g => [g]) := by
  unfold assignGroups
  rw [assignFolds_eq groups k hk]
  simp [List.map_map, Function.comp]

theorem assignGroups_getD (groups : List Nat) (k f : Nat) (hk : groups.dedup.length = k)
    (hf : f < k) :
    (assignGroups groups k).getD f [] = [(sortedGroups groups).getD f 0] := by
  rw [assignGroups_eq groups k hk]
  have hlt : f < (sortedGroups groups).length := by
    rw [sortedGroups_length, hk]; exact hf
  rw [List.getD_eq_getElem _ _ (by rw [List.length_map]; exact hlt), List.getElem_map,
    List.getD_eq_getElem _ _ hlt]

theorem gkf_test_eq (groups : List Nat) (k f : Nat) (hk : groups.dedup.length = k)
    (hf : f < k) :
    ((gkfFolds groups k).getD f default).test
      = groupIndices groups ((sortedGroups groups).getD f 0) := by
  rw [gkfFolds_getD groups k f hf]
  show (List.range groups.length).filter
      (fun i => ((assignGroups groups k).getD f []).contains (groups.getD i 0))
    = groupIndices groups ((sortedGroups groups).getD f 0)
  rw [assignGroups_getD groups k f hk hf]
  unfold groupIndices
  apply List.filter_congr
  intro i _
  simp [List.contains_cons]

/-- C10: when the number of unique group identifiers equals `k`, each fold of
`group_k_fold_splits` has a test set exactly equal to the full index set of
one group, each group serves as the test set of exactly one fold, and the `k`
test sets partition `[0, N)`. -/
theorem claim_C10_group_equal_k :
    ∀ (groups : List Nat) (k : Nat), groups.dedup.length = k →
      group_k_fold_splits groups k = Except.ok (gkfFolds groups k) ∧
      (∀ f, f < k → ∃ g ∈ groups.dedup,
        ((gkfFolds groups k).getD f default).test = groupIndices groups g) ∧
      (∀ g ∈ groups.dedup, ∃ f, f < k ∧
        ((gkfFolds groups k).getD f default).test = groupIndices groups g ∧
        ∀ f', f' < k →
          ((gkfFolds groups k).getD f' default).test = groupIndices groups g → f' = f) ∧
      (∀ f f', f < k → f' < k → f ≠ f' →
        ((gkfFolds groups k).getD f default).test.Disjoint
          ((gkfFolds groups k).getD f' default).test) ∧
      (∀ x, x < groups.length ↔
        ∃ f, f < k ∧ x ∈ ((gkfFolds groups k).getD f default).test) := by
  intro groups k hk
  have hsortlen : (sortedGroups groups).length = k := by rw [sortedGroups_length, hk]
  have hsortmem : ∀ f, f < k → (sortedGroups groups).getD f 0 ∈ groups.dedup := by
    intro f hf
    have hlt : f < (sortedGroups groups).length := by rw [hsortlen]; exact hf
    rw [List.getD_eq_getElem _ _ hlt]
    exact (mem_sortedGroups groups _).mp (List.getElem_mem hlt)
  have hinj : ∀ f f', f < k → f' < k →
      (sortedGroups groups).getD f 0 = (sortedGroups groups).getD f' 0 → f = f' := by
    intro f f' hf hf' heq
    have hltf : f < (sortedGroups groups).length := by rw [hsortlen]; exact hf
    have hltf' : f' < (sortedGroups groups).length := by rw [hsortlen]; exact hf'
    rw [List.getD_eq_getElem _ _ hltf, List.getD_eq_getElem _ _ hltf'] at heq
    exact ((sortedGroups_nodup groups).getElem_inj_iff).mp heq
  refine ⟨?_, ?_, ?_, ?_, ?_⟩
  · unfold group_k_fold_splits
    rw [if_neg (by omega)]
  · intro f hf
    exact ⟨(sortedGroups groups).getD f 0, hsortmem f hf, gkf_test_eq groups k f hk hf⟩
  · intro g hg
    have hg' : g ∈ sortedGroups groups := (mem_sortedGroups groups g).mpr hg
    rw [List.mem_iff_getElem] at hg'
    obtain ⟨f, hlt, hgf⟩ := hg'
    have hf : f < k := by rw [← hsortlen]; exact hlt
    have hgetD : (sortedGroups groups).getD f 0 = g := by
      rw [List.getD_eq_getElem _ _ hlt]; exact hgf
    refine ⟨f, hf, ?_, ?_⟩
    · rw [gkf_test_eq groups k f hk hf, hgetD]
    · intro f' hf' htest
      rw [gkf_test_eq groups k f' hk hf'] at htest
      have : (sortedGroups groups).getD f' 0 = g :=
        groupIndices_injective groups _ g (hsortmem f' hf') htest
      exact hinj f' f hf' hf (by rw [this, hgetD])
  · intro f f' hf hf' hne
    rw [gkf_test_eq groups k f hk hf, gkf_test_eq groups k f' hk hf']
    intro x hx hx'
    rw [mem_groupIndices] at hx hx'
    exact hne (hinj f f' hf hf' (by rw [← hx.2, hx'.2]))
  · intro x
    constructor
    · intro hx
      have hgmem : groups.getD x 0 ∈ groups.dedup := by
        rw [List.mem_dedup, List.getD_eq_getElem _ _ hx]
        exact List.getElem_mem hx
      have hg' : groups.getD x 0 ∈ sortedGroups groups :=
        (mem_sortedGroups groups _).mpr hgmem
      rw [List.mem_iff_getElem] at hg'
      obtain ⟨f, hlt, hgf⟩ := hg'
      have hf : f < k := by rw [← hsortlen]; exact hlt
      refine ⟨f, hf, ?_⟩
      rw [gkf_test_eq groups k f hk hf, mem_groupIndices]
      refine ⟨hx, ?_⟩
      rw [List.getD_eq_getElem _ _ hlt]
      exact hgf.symm
    · rintro ⟨f, hf, hx⟩
      rw [gkf_test_eq groups k f hk hf, mem_groupIndices] at hx
      exact hx.1

/-- Witness for C10: the theorem instantiated at the notebook's example groups
`[2, 2, 2, 3, 3, 3, 4, 4, 4, 4]` (3 unique groups) with `k = 3`. -/
theorem claim_C10_group_equal_k_witness :
    group_k_fold_splits [2, 2, 2, 3, 3, 3, 4, 4, 4, 4] 3 =
      Except.ok (gkfFolds [2, 2, 2, 3, 3, 3, 4, 4, 4, 4] 3) :=
  (claim_C10_group_equal_k [2, 2, 2, 3, 3, 3, 4, 4, 4, 4] 3 (by decide)).1

/-! ### Candidate statistics, ranking and the report utility -/

/-- Per-candidate cross-validated statistics consumed by ranking: mean test
score and standard deviation of the test scores. -/
structure Stats where
  mean : ℚ
  std : ℚ
deriving DecidableEq, Inhabited, Repr

/-- Modelled from the spec: result a beats result b when its mean test score
is higher, or the means are equal and its standard deviation is lower. -/
def better (a b : Stats) : Prop :=
  b.mean < a.mean ∨ (a.mean = b.mean ∧ a.std < b.std)

instance : DecidableRel better := fun a b => by
  unfold better
  infer_instance

theorem better_irrefl (a : Stats) : ¬better a a := by
  unfold better
  simp

theorem better_trans {a b c : Stats} (hab : better a b) (hbc : better b c) :
    better a c := by
  unfold better at *
  rcases hab with h1 | ⟨h1, h1'⟩ <;> rcases hbc with h2 | ⟨h2, h2'⟩
  · exact Or.inl (lt_trans h2 h1)
  · exact Or.inl (h2 ▸ h1)
  · exact Or.inl (lt_of_lt_of_le h2 (le_of_eq h1.symm))
  · exact Or.inr ⟨h1.trans h2, lt_trans h1' h2'⟩

theorem better_trichotomy (a b : Stats) : better a b ∨ a = b ∨ better b a := by
  unfold better
  rcases lt_trichotomy a.mean b.mean with h | h | h
  · exact Or.inr (Or.inr (Or.inl h))
  · rcases lt_trichotomy a.std b.std with h' | h' | h'
    · exact Or.inl (Or.inr ⟨h, h'⟩)
    · refine Or.inr (Or.inl ?_)
      cases a
      cases b
      simp_all
    · exact Or.inr (Or.inr (Or.inr ⟨h.symm, h'⟩))
  · exact Or.inl (Or.inl h)

/-- Modelled from the spec: competition ("min") rank of a result — one plus
the number of strictly better results; results tying exactly on both mean and
standard deviation therefore share a rank. -/
def rankOf (rs : List Stats) (e : Stats) : Nat :=
  1 + rs.countP (fun e2 => decide (better e2 e))

/-- Rank of the candidate at evaluation position j. -/
def rankAt (rs : List Stats) (j : Nat) : Nat := rankOf rs (rs.getD j default)

/-- Embedded from the notebook's `report` utility: the candidate positions
whose rank equals r (`np.flatnonzero(results['rank_test_score'] == i)`). -/
def reportIdx (rs : List Stats) (r : Nat) : List Nat :=
  (List.range rs.length).filter (fun j => rankAt rs j == r)

/-- Embedded from the notebook's `report` utility: the (rank, candidate)
pairs printed for ranks 1..n_top, in print order. -/
def reportEntries (rs : List Stats) (nTop : Nat) : List (Nat × Nat) :=
  ((List.range' 1 nTop).map (fun r => (reportIdx rs r).map (fun j => (r, j)))).flatten

/-- Modelled from the spec: the ranking order on (evaluation position,
statistics) pairs — descending mean test score, ties by ascending standard
deviation, exact ties by original evaluation order. -/
def rankedBefore (a b : Nat × Stats) : Prop :=
  better a.2 b.2 ∨ (a.2 = b.2 ∧ a.1 ≤ b.1)

instance : DecidableRel rankedBefore := fun a b => by
  unfold rankedBefore
  infer_instance

instance : IsTrans (Nat × Stats) rankedBefore := by
  constructor
  intro a b c hab hbc
  rcases hab with h1 | ⟨h1, h1'⟩ <;> rcases hbc with h2 | ⟨h2, h2'⟩
  · exact Or.inl (better_trans h1 h2)
  · exact Or.inl (h2 ▸ h1)
  · exact Or.inl (h1 ▸ h2)
  · exact Or.inr ⟨h1.trans h2, h1'.trans h2'⟩

instance : IsTotal (Nat × Stats) rankedBefore := by
  constructor
  intro a b
  rcases better_trichotomy a.2 b.2 with h | h | h
  · exact Or.inl (Or.inl h)
  · rcases Nat.le_total a.1 b.1 with h' | h'
    · exact Or.inl (Or.inr ⟨h, h'⟩)
    · exact Or.inr (Or.inr ⟨h.symm, h'⟩)
  · exact Or.inr (Or.inl h)

/-- Modelled from the spec: the ranked list — all evaluated candidates,
ordered by `rankedBefore`. -/
def sortedRanking (l : List (Nat × Stats)) : List (Nat × Stats) :=
  List.insertionSort rankedBefore l

/-! ### Counting helpers for competition ranks -/

theorem countP_lt_countP {α : Type} (l : List α) (p q : α → Bool)
    (hpq : ∀ x ∈ l, p x = true → q x = true) (a : α) (ha : a ∈ l)
    (hqa : q a = true) (hpa : p a = false) : l.countP p < l.countP q := by
  induction l with
  | nil => simp at ha
  | cons x t ih =>
    rw [List.countP_cons, List.countP_cons]
    rcases List.mem_cons.mp ha with rfl | hat
    · have hmono : t.countP p ≤ t.countP q :=
        List.countP_mono_left (fun y hy => hpq y (List.mem_cons_of_mem _ hy))
      rw [hpa, hqa]
      simp only [Bool.false_eq_true, if_false, if_true]
      omega
    · have hx := hpq x (List.mem_cons_self _ _)
      have hstrict := ih (fun y hy h => hpq y (List.mem_cons_of_mem _ hy) h) hat
      by_cases hpx : p x = true
      · rw [hpx, hx hpx]
        omega
      · simp only [hpx, Bool.false_eq_true, if_false]
        split_ifs <;> omega

theorem countP_disjoint_add_le {α : Type} (l : List α) (p q r : α → Bool)
    (hp : ∀ x ∈ l, p x = true → r x = true)
    (hq : ∀ x ∈ l, q x = true → r x = true)
    (hdisj : ∀ x ∈ l, ¬(p x = true ∧ q x = true)) :
    l.countP p + l.countP q ≤ l.countP r := by
  induction l with
  | nil => simp
  | cons x t ih =>
    rw [List.countP_cons, List.countP_cons, List.countP_cons]
    have hih := ih (fun y hy => hp y (List.mem_cons_of_mem _ hy))
      (fun y hy => hq y (List.mem_cons_of_mem _ hy))
      (fun y hy => hdisj y (List.mem_cons_of_mem _ hy))
    have hx := List.mem_cons_self x t
    by_cases hpx : p x = true
    · have hrx := hp x hx hpx
      have hqx : ¬q x = true := fun hqx => hdisj x hx ⟨hpx, hqx⟩
      rw [if_pos hpx, if_pos hrx, if_neg hqx]
      omega
    · by_cases hqx : q x = true
      · have hrx := hq x hx hqx
        rw [if_pos hqx, if_pos hrx, if_neg hpx]
        omega
      · rw [if_neg hpx, if_neg hqx]
        split_ifs <;> omega

theorem rankOf_lt_of_better (rs : List Stats) (e e0 : Stats) (he : e ∈ rs)
    (h : better e e0) : rankOf rs e < rankOf rs e0 := by
  unfold rankOf
  have hcount := countP_lt_countP rs (fun x => decide (better x e))
    (fun x => decide (better x e0))
    (by intro x _ hx
        rw [decide_eq_true_eq] at hx
        rw [decide_eq_true_eq]
        exact better_trans hx h)
    e he (by rw [decide_eq_true_eq]; exact h)
    (by rw [decide_eq_false_iff_not]; exact better_irrefl e)
  omega

theorem rankOf_add_ties_le_of_better (rs : List Stats) (e e0 : Stats)
    (h : better e0 e) :
    rankOf rs e0 + rs.countP (fun x => decide (x = e0)) ≤ rankOf rs e := by
  unfold rankOf
  have hcount := countP_disjoint_add_le rs (fun x => decide (better x e0))
    (fun x => decide (x = e0)) (fun x => decide (better x e))
    (by intro x _ hx
        rw [decide_eq_true_eq] at hx
        rw [decide_eq_true_eq]
        exact better_trans hx h)
    (by intro x _ hx
        rw [decide_eq_true_eq] at hx
        rw [decide_eq_true_eq]
        rw [hx]
        exact h)
    (by intro x _ hx
        rw [decide_eq_true_eq, decide_eq_true_eq] at hx
        rw [hx.2] at hx
        exact better_irrefl e0 hx.1)
  omega

/-- C2: the ranking orders all evaluated candidates by descending mean test
score, ties by ascending standard deviation then original evaluation order;
candidates tying exactly on both mean and standard deviation receive the same
rank, and every co-ranked candidate appears in the report's candidate set for
that rank. -/
theorem claim_C2_rank_order :
    ∀ rs : List Stats,
      (sortedRanking rs.enum).Perm rs.enum ∧
      List.Sorted rankedBefore (sortedRanking rs.enum) ∧
      (∀ i j, i < rs.length → j < rs.length →
        rs.getD i default = rs.getD j default → rankAt rs i = rankAt rs j) ∧
      (∀ i, i < rs.length → i ∈ reportIdx rs (rankAt rs i)) := by
  intro rs
  refine ⟨List.perm_insertionSort _ _, List.sorted_insertionSort _ _, ?_, ?_⟩
  · intro i j _ _ h
    unfold rankAt
    rw [h]
  · intro i hi
    unfold reportIdx
    rw [List.mem_filter, List.mem_range]
    exact ⟨hi, by simp⟩

/-- Witness for C2: the theorem instantiated at three results with an exact
tie between positions 0 and 1. -/
theorem claim_C2_rank_order_witness :
    (sortedRanking ([⟨1, 0⟩, ⟨1, 0⟩, ⟨0, 0⟩] : List Stats).enum).Perm
      ([⟨1, 0⟩, ⟨1, 0⟩, ⟨0, 0⟩] : List Stats).enum ∧
    rankAt [⟨1, 0⟩, ⟨1, 0⟩, ⟨0, 0⟩] 0 = rankAt [⟨1, 0⟩, ⟨1, 0⟩, ⟨0, 0⟩] 1 :=
  ⟨(claim_C2_rank_order [⟨1, 0⟩, ⟨1, 0⟩, ⟨0, 0⟩]).1,
   (claim_C2_rank_order [⟨1, 0⟩, ⟨1, 0⟩, ⟨0, 0⟩]).2.2.1 0 1
     (by decide) (by decide) (by decide)⟩

/-- C9: competition ranks leave gaps — when t candidates tie exactly at rank
r, no candidate occupies ranks r+1 .. r+t-1, so the report's candidate query
for such a skipped rank is empty and the report prints no entry for it. -/
theorem claim_C9_rank_gaps :
    ∀ (rs : List Stats) (i s : Nat), i < rs.length →
      rankAt rs i < s →
      s < rankAt rs i + rs.countP (fun e2 => decide (e2 = rs.getD i default)) →
      reportIdx rs s = [] ∧
      ∀ nTop, (reportEntries rs nTop).filter (fun p => p.1 == s) = [] := by
  intro rs i s hi hlo hhi
  have hcore : ∀ e ∈ rs, rankOf rs e ≠ s := by
    intro e he
    rcases better_trichotomy e (rs.getD i default) with hb | heq | hb
    · have := rankOf_lt_of_better rs e _ he hb
      unfold rankAt at hlo
      omega
    · rw [heq]
      unfold rankAt at hlo
      omega
    · have := rankOf_add_ties_le_of_better rs e _ hb
      unfold rankAt at hhi
      omega
  have hempty : reportIdx rs s = [] := by
    unfold reportIdx
    rw [List.filter_eq_nil_iff]
    intro j hj
    rw [List.mem_range] at hj
    have hje : rs.getD j default ∈ rs := by
      rw [List.getD_eq_getElem _ _ hj]
      exact List.getElem_mem hj
    have hne := hcore _ hje
    unfold rankAt
    simpa using hne
  refine ⟨hempty, ?_⟩
  intro nTop
  rw [List.filter_eq_nil_iff]
  intro p hp hps
  unfold reportEntries at hp
  rw [List.mem_flatten] at hp
  obtain ⟨inner, hin, hpin⟩ := hp
  rw [List.mem_map] at hin
  obtain ⟨r, _, rfl⟩ := hin
  rw [List.mem_map] at hpin
  obtain ⟨j, hjmem, rfl⟩ := hpin
  have hrs : r = s := by simpa using hps
  subst hrs
  rw [hempty] at hjmem
  simp at hjmem

/-- Witness for C9: positions 0 and 1 tie exactly at rank 1, so rank 2 is
skipped and its report candidate set is empty. -/
theorem claim_C9_rank_gaps_witness :
    reportIdx [⟨1, 0⟩, ⟨1, 0⟩, ⟨0, 0⟩] 2 = [] :=
  (claim_C9_rank_gaps [⟨1, 0⟩, ⟨1, 0⟩, ⟨0, 0⟩] 0 2
    (by decide) (by decide) (by decide)).1

/-! ### CrossValidator -/

/-- Error taxonomy of the harness: a model fit/score failure carrying the fold
index it occurred in and the underlying cause. -/
structure ModelFailure where
  foldIndex : Nat
  cause : String
deriving DecidableEq, Repr

/-- Runs fit+score fold by fold in order, stopping at the first failing fold
with a `ModelFailure` carrying that fold's index and cause. -/
def collectScores (runFold : Nat → Split → Except String ℚ) :
    Nat → List Split → Except ModelFailure (List ℚ)
  | _, [] => .ok []
  | i, sp :: rest =>
    match runFold i sp with
    | .error c => .error ⟨i, c⟩
    | .ok sc => (collectScores runFold (i + 1) rest).map (fun scs => sc :: scs)

/-- Mean of a list of scores. -/
def meanOf (xs : List ℚ) : ℚ := xs.sum / xs.length

/-- Population variance of a list of scores; the population standard deviation
of the spec is its square root, kept here in squared (exact rational) form,
which is order-isomorphic to the standard deviation. -/
def varOf (xs : List ℚ) : ℚ := ((xs.map (fun x => (x - meanOf xs) ^ 2)).sum) / xs.length

/-- EvaluationResult: per-split scores with the derived aggregates. -/
structure EvaluationResult where
  scores : List ℚ
  mean : ℚ
  variance : ℚ
deriving DecidableEq, Repr

/-- Modelled from the spec: `CrossValidator.evaluate` — run fit+score on every
split of the strategy; if any fold fails, the whole evaluation fails with a
`ModelFailure` (no silent skipping, no partial aggregate); otherwise return
the per-split scores with mean and population variance.  The external model is
the supplied `runFold` (fold index, split) → score function. -/
def evaluate (runFold : Nat → Split → Except String ℚ) (splits : List Split) :
    Except ModelFailure EvaluationResult :=
  (collectScores runFold 0 splits).map (fun scs => ⟨scs, meanOf scs, varOf scs⟩)

theorem collectScores_error_of_exists
    (runFold : Nat → Split → Except String ℚ) :
    ∀ (splits : List Split) (i0 : Nat),
      (∃ j, j < splits.length ∧ (runFold (i0 + j) (splits.getD j default)).isOk = false) →
      ∃ j c, j < splits.length ∧ runFold (i0 + j) (splits.getD j default) = .error c ∧
        collectScores runFold i0 splits = .error ⟨i0 + j, c⟩ := by
  intro splits
  induction splits with
  | nil =>
    intro i0 h
    obtain ⟨j, hj, _⟩ := h
    simp at hj
  | cons sp rest ih =>
    intro i0 h
    cases hfe : runFold i0 sp with
    | error c =>
      refine ⟨0, c, by simp, by simpa using hfe, ?_⟩
      show collectScores runFold i0 (sp :: rest) = .error ⟨i0 + 0, c⟩
      simp [collectScores, hfe]
    | ok sc =>
      obtain ⟨j, hj, hne⟩ := h
      cases j with
      | zero =>
        rw [List.getD_cons_zero] at hne
        rw [Nat.add_zero, hfe] at hne
        simp [Except.isOk, Except.toBool] at hne
      | succ j =>
        have hrest : ∃ j, j < rest.length ∧
            (runFold ((i0 + 1) + j) (rest.getD j default)).isOk = false := by
          refine ⟨j, ?_, ?_⟩
          · simp only [List.length_cons] at hj
            omega
          · rw [List.getD_cons_succ] at hne
            have harith : i0 + (j + 1) = (i0 + 1) + j := by omega
            rw [harith] at hne
            exact hne
        obtain ⟨j', c, hj', heq, hcol⟩ := ih (i0 + 1) hrest
        refine ⟨j' + 1, c, ?_, ?_, ?_⟩
        · simp only [List.length_cons]
          omega
        · rw [List.getD_cons_succ]
          have harith : i0 + (j' + 1) = (i0 + 1) + j' := by omega
          rw [harith]
          exact heq
        · show collectScores runFold i0 (sp :: rest) = .error ⟨i0 + (j' + 1), c⟩
          have harith : i0 + (j' + 1) = (i0 + 1) + j' := by omega
          rw [harith]
          simp [collectScores, hfe, hcol, Except.map]

theorem collectScores_ok_of_all
    (runFold : Nat → Split → Except String ℚ) :
    ∀ (splits : List Split) (i0 : Nat),
      (∀ j, j < splits.length → (runFold (i0 + j) (splits.getD j default)).isOk = true) →
      ∃ scs, collectScores runFold i0 splits = .ok scs ∧ scs.length = splits.length := by
  intro splits
  induction splits with
  | nil => intro i0 _; exact ⟨[], rfl, rfl⟩
  | cons sp rest ih =>
    intro i0 h
    have h0 := h 0 (by simp)
    rw [Nat.add_zero, List.getD_cons_zero] at h0
    cases hfe : runFold i0 sp with
    | error c => rw [hfe] at h0; simp [Except.isOk, Except.toBool] at h0
    | ok sc =>
      have hrest : ∀ j, j < rest.length →
          (runFold ((i0 + 1) + j) (rest.getD j default)).isOk = true := by
        intro j hj
        have := h (j + 1) (by simp only [List.length_cons]; omega)
        rw [List.getD_cons_succ] at this
        have harith : i0 + (j + 1) = (i0 + 1) + j := by omega
        rw [harith] at this
        exact this
      obtain ⟨scs, hcol, hlen⟩ := ih (i0 + 1) hrest
      refine ⟨sc :: scs, ?_, by simp [hlen]⟩
      simp [collectScores, hfe, hcol, Except.map]

/-! ### SearchDriver -/

/-- Per-candidate outcome inside a search: either cross-validated statistics,
or a `failed` marker wrapping the `ModelFailure` (the candidate is kept in the
diagnostics but not ranked). -/
inductive CandidateRecord (C : Type) where
  | scored (idx : Nat) (cand : C) (st : Stats)
  | failed (idx : Nat) (cand : C) (mf : ModelFailure)

/-- One evaluation of one candidate: the single `evalFn` call made for it. -/
def candidateRecordOf {C : Type} (evalFn : C → Except ModelFailure Stats)
    (i : Nat) (c : C) : CandidateRecord C :=
  match evalFn c with
  | .ok st => .scored i c st
  | .error mf => .failed i c mf

/-- Sequential search loop: evaluates each candidate exactly once, in order,
also returning the list of evaluator invocations actually made. -/
def searchGo {C : Type} (evalFn : C → Except ModelFailure Stats) :
    Nat → List C → List (CandidateRecord C) × List C
  | _, [] => ([], [])
  | i, c :: rest =>
    (candidateRecordOf evalFn i c :: (searchGo evalFn (i + 1) rest).1,
     c :: (searchGo evalFn (i + 1) rest).2)

/-- Projection of a record to a rankable (evaluation position, stats) pair;
failed candidates project to none. -/
def recToPair {C : Type} : CandidateRecord C → Option (Nat × Stats)
  | .scored i _ st => some (i, st)
  | .failed _ _ _ => none

/-- The successfully evaluated candidates, in evaluation order. -/
def successes {C : Type} (records : List (CandidateRecord C)) : List (Nat × Stats) :=
  records.filterMap recToPair

/-- SearchOutcome: the per-candidate records (diagnostics), the ranked list of
successful candidates, and the evaluator invocations made. -/
structure SearchOutcome (C : Type) where
  results : List (CandidateRecord C)
  ranked : List (Nat × Stats)
  evalCalls : List C

/-- Modelled from the spec: `SearchDriver.search` — evaluate every candidate
configuration once via the cross-validating evaluator, record failures with a
`failed` marker without aborting, exclude them from ranking, and rank the
successes. -/
def search {C : Type} (evalFn : C → Except ModelFailure Stats) (cands : List C) :
    SearchOutcome C :=
  ⟨(searchGo evalFn 0 cands).1,
   sortedRanking (successes (searchGo evalFn 0 cands).1),
   (searchGo evalFn 0 cands).2⟩

theorem searchGo_calls {C : Type} (evalFn : C → Except ModelFailure Stats) :
    ∀ (cands : List C) (i : Nat), (searchGo evalFn i cands).2 = cands := by
  intro cands
  induction cands with
  | nil => intro i; rfl
  | cons c rest ih => intro i; simp [searchGo, ih]

theorem searchGo_length {C : Type} (evalFn : C → Except ModelFailure Stats) :
    ∀ (cands : List C) (i : Nat), (searchGo evalFn i cands).1.length = cands.length := by
  intro cands
  induction cands with
  | nil => intro i; rfl
  | cons c rest ih => intro i; simp [searchGo, ih]

theorem searchGo_getElem? {C : Type} (evalFn : C → Except ModelFailure Stats) :
    ∀ (cands : List C) (i j : Nat),
      ((searchGo evalFn i cands).1)[j]? =
        (cands[j]?).map (fun c => candidateRecordOf evalFn (i + j) c) := by
  intro cands
  induction cands with
  | nil => intro i j; simp [searchGo]
  | cons c rest ih =>
    intro i j
    cases j with
    | zero => simp [searchGo]
    | succ j =>
      have hcons : (searchGo evalFn i (c :: rest)).1
          = candidateRecordOf evalFn i c :: (searchGo evalFn (i + 1) rest).1 := rfl
      rw [hcons, List.getElem?_cons_succ, List.getElem?_cons_succ, ih (i + 1) j]
      have harith : (i + 1) + j = i + (j + 1) := by omega
      rw [harith]

theorem mem_searchGo_records {C : Type} (evalFn : C → Except ModelFailure Stats) :
    ∀ (cands : List C) (i : Nat) (r : CandidateRecord C),
      r ∈ (searchGo evalFn i cands).1 ↔
        ∃ j c, cands[j]? = some c ∧ r = candidateRecordOf evalFn (i + j) c := by
  intro cands
  induction cands with
  | nil =>
    intro i r
    simp [searchGo]
  | cons c rest ih =>
    intro i r
    simp only [searchGo, List.mem_cons, ih (i + 1)]
    constructor
    · rintro (rfl | ⟨j, c', hj, rfl⟩)
      · exact ⟨0, c, by simp, by rw [Nat.add_zero]⟩
      · refine ⟨j + 1, c', by simpa using hj, ?_⟩
        have harith : i + (j + 1) = (i + 1) + j := by omega
        rw [harith]
    · rintro ⟨j, c', hj, rfl⟩
      cases j with
      | zero =>
        left
        simp only [List.getElem?_cons_zero, Option.some_inj] at hj
        rw [hj, Nat.add_zero]
      | succ j =>
        right
        refine ⟨j, c', by simpa using hj, ?_⟩
        have harith : i + (j + 1) = (i + 1) + j := by omega
        rw [harith]

theorem mem_successes_search {C : Type} (f : C → Except ModelFailure Stats)
    (cands : List C) (q : Nat × Stats) :
    q ∈ successes (searchGo f 0 cands).1 ↔
      ∃ j c st, cands[j]? = some c ∧ f c = Except.ok st ∧ q = (j, st) := by
  unfold successes
  rw [List.mem_filterMap]
  constructor
  · rintro ⟨r, hr, hrq⟩
    rw [mem_searchGo_records] at hr
    obtain ⟨j, c, hj, rfl⟩ := hr
    unfold candidateRecordOf at hrq
    cases hf : f c with
    | ok st =>
      rw [hf] at hrq
      simp only [recToPair, Option.some_inj] at hrq
      exact ⟨j, c, st, hj, hf, by rw [← hrq, Nat.zero_add]⟩
    | error mf =>
      rw [hf] at hrq
      simp [recToPair] at hrq
  · rintro ⟨j, c, st, hj, hf, rfl⟩
    refine ⟨.scored j c st, ?_, rfl⟩
    rw [mem_searchGo_records]
    refine ⟨j, c, hj, ?_⟩
    unfold candidateRecordOf
    rw [hf, Nat.zero_add]

/-- C3: if any fold's fit/score fails, `CrossValidator.evaluate` fails as a
whole with a `ModelFailure` carrying the fold index and cause (no fold
silently skipped, no partial aggregate); an enclosing `SearchDriver.search`
does not abort: every candidate gets exactly one evaluator call (the call log
equals the candidate list — no retries), a failing candidate is recorded with
a `failed` marker, and it is excluded from the ranking. -/
theorem claim_C3_failure_handling :
    (∀ (runFold : Nat → Split → Except String ℚ) (splits : List Split),
      (∃ j, j < splits.length ∧ (runFold j (splits.getD j default)).isOk = false) →
      ∃ mf, evaluate runFold splits = Except.error mf ∧
        mf.foldIndex < splits.length ∧
        runFold mf.foldIndex (splits.getD mf.foldIndex default) =
          Except.error mf.cause) ∧
    (∀ (C : Type) (f : C → Except ModelFailure Stats) (cands : List C),
      (search f cands).evalCalls = cands ∧
      (search f cands).results.length = cands.length ∧
      (∀ j c mf, cands[j]? = some c → f c = Except.error mf →
        ((search f cands).results)[j]? = some (CandidateRecord.failed j c mf) ∧
        ∀ q ∈ (search f cands).ranked, q.1 ≠ j)) := by
  constructor
  · intro runFold splits hex
    have hex0 : ∃ j, j < splits.length ∧
        (runFold (0 + j) (splits.getD j default)).isOk = false := by
      simpa using hex
    obtain ⟨j, c, hj, heq, hcol⟩ := collectScores_error_of_exists runFold splits 0 hex0
    refine ⟨⟨0 + j, c⟩, ?_, by simpa using hj, by simpa using heq⟩
    unfold evaluate
    rw [hcol]
    rfl
  · intro C f cands
    refine ⟨searchGo_calls f cands 0, searchGo_length f cands 0, ?_⟩
    intro j c mf hj hf
    constructor
    · show ((searchGo f 0 cands).1)[j]? = _
      rw [searchGo_getElem? f cands 0 j, hj, Option.map_some']
      unfold candidateRecordOf
      rw [hf]
      simp
    · intro q hq
      have hq' : q ∈ successes (searchGo f 0 cands).1 :=
        (List.perm_insertionSort rankedBefore _).mem_iff.mp hq
      rw [mem_successes_search] at hq'
      obtain ⟨j', c', st, hj', hf', rfl⟩ := hq'
      intro hqj
      simp only at hqj
      subst hqj
      rw [hj] at hj'
      rw [Option.some_inj] at hj'
      subst hj'
      rw [hf] at hf'
      exact Except.noConfusion hf'

/-- Witness for C3: a two-split evaluation whose second fold fails, and a
one-candidate search whose only candidate fails. -/
theorem claim_C3_failure_handling_witness :
    (∃ mf, evaluate (fun i _ => if i = 1 then Except.error "boom" else Except.ok (0 : ℚ))
          [⟨[], []⟩, ⟨[], []⟩] = Except.error mf ∧
        mf.foldIndex < ([⟨[], []⟩, ⟨[], []⟩] : List Split).length ∧
        (fun i _ => if i = 1 then Except.error "boom" else Except.ok (0 : ℚ)) mf.foldIndex
            (([⟨[], []⟩, ⟨[], []⟩] : List Split).getD mf.foldIndex default) =
          Except.error mf.cause) ∧
    (search (fun _ : Nat => Except.error (⟨0, "down"⟩ : ModelFailure)) [5]).evalCalls = [5] :=
  ⟨claim_C3_failure_handling.1 _ _ ⟨1, by decide, rfl⟩,
   (claim_C3_failure_handling.2 Nat (fun _ => Except.error ⟨0, "down"⟩) [5]).1⟩

/-! ### All-successful searches -/

theorem successes_searchGo_all_ok {C : Type} (f : C → Except ModelFailure Stats) :
    ∀ (cands : List C) (i : Nat), (∀ c ∈ cands, (f c).isOk = true) →
      (successes (searchGo f i cands).1).length = cands.length := by
  intro cands
  induction cands with
  | nil => intro i _; rfl
  | cons c rest ih =>
    intro i h
    have hc := h c (List.mem_cons_self _ _)
    cases hf : f c with
    | error mf => rw [hf] at hc; simp [Except.isOk, Except.toBool] at hc
    | ok st =>
      have hrec : (searchGo f i (c :: rest)).1
          = candidateRecordOf f i c :: (searchGo f (i + 1) rest).1 := rfl
      rw [hrec]
      unfold candidateRecordOf
      rw [hf]
      show (successes (CandidateRecord.scored i c st :: (searchGo f (i + 1) rest).1)).length
        = (c :: rest).length
      unfold successes
      rw [List.filterMap_cons]
      show ((i, st) :: (searchGo f (i + 1) rest).1.filterMap recToPair).length = _
      simp only [List.length_cons]
      rw [show (searchGo f (i + 1) rest).1.filterMap recToPair
        = successes (searchGo f (i + 1) rest).1 from rfl]
      rw [ih (i + 1) (fun c' hc' => h c' (List.mem_cons_of_mem _ hc'))]

theorem ranked_length_all_ok {C : Type} (f : C → Except ModelFailure Stats)
    (cands : List C) (h : ∀ c ∈ cands, (f c).isOk = true) :
    (search f cands).ranked.length = cands.length := by
  show (sortedRanking (successes (searchGo f 0 cands).1)).length = cands.length
  unfold sortedRanking
  rw [List.length_insertionSort]
  exact successes_searchGo_all_ok f cands 0 h

theorem rankedBefore_mean_le {a b : Nat × Stats} (h : rankedBefore a b) :
    b.2.mean ≤ a.2.mean := by
  rcases h with h | ⟨h, _⟩
  · rcases h with h | ⟨h, _⟩
    · exact le_of_lt h
    · exact le_of_eq h.symm
  · rw [h]

theorem sorted_head_mean_ge (l : List (Nat × Stats))
    (hs : List.Sorted rankedBefore l) :
    ∀ q ∈ l, q.2.mean ≤ (l.getD 0 default).2.mean := by
  cases l with
  | nil => intro q hq; simp at hq
  | cons h t =>
    intro q hq
    rw [List.getD_cons_zero]
    rcases List.mem_cons.mp hq with rfl | hqt
    · exact le_refl _
    · exact rankedBefore_mean_le ((List.sorted_cons.mp hs).1 q hqt)

theorem search_ranked_sorted {C : Type} (f : C → Except ModelFailure Stats)
    (cands : List C) : List.Sorted rankedBefore (search f cands).ranked :=
  List.sorted_insertionSort rankedBefore _

/-! ### Grid search -/

/-- A scalar parameter value (numeric or categorical). -/
inductive PVal where
  | num (q : ℚ)
  | str (s : String)
deriving DecidableEq, Repr

/-- Modelled from the spec: grid search candidate enumeration — the Cartesian
product of the per-parameter value lists, lexicographic over parameter
insertion order, then value order. -/
def gridCandidates : List (String × List PVal) → List (List (String × PVal))
  | [] => [[]]
  | (nm, vs) :: rest =>
    (vs.map (fun v => (gridCandidates rest).map (fun c => (nm, v) :: c))).flatten

/-- The parameter grid of the notebook's GridSearchCV cell:
`{'C': [1, 10, 20, 100], 'penalty': ['l2', 'l1']}`. -/
def exampleGrid : List (String × List PVal) :=
  [("C", [.num 1, .num 10, .num 20, .num 100]),
   ("penalty", [.str "l2", .str "l1"])]

theorem gridCandidates_length :
    ∀ grid : List (String × List PVal),
      (gridCandidates grid).length = (grid.map (fun p => p.2.length)).prod := by
  intro grid
  induction grid with
  | nil => rfl
  | cons p rest ih =>
    obtain ⟨nm, vs⟩ := p
    show ((vs.map (fun v => (gridCandidates rest).map (fun c => (nm, v) :: c))).flatten).length
      = _
    rw [List.length_flatten, List.map_map]
    have hconst : (List.map (List.length ∘ fun v =>
        (gridCandidates rest).map (fun c => (nm, v) :: c)) vs)
        = List.map (fun _ => (gridCandidates rest).length) vs := by
      apply List.map_congr_left
      intro v _
      simp
    rw [hconst, List.map_const', List.sum_replicate, smul_eq_mul, ih]
    simp [List.map_cons, List.prod_cons]

theorem mem_gridCandidates :
    ∀ (grid : List (String × List PVal)) (c : List (String × PVal)),
      c ∈ gridCandidates grid ↔
        List.Forall₂ (fun pv pl => pv.1 = pl.1 ∧ pv.2 ∈ pl.2) c grid := by
  intro grid
  induction grid with
  | nil =>
    intro c
    show c ∈ [[]] ↔ _
    rw [List.forall₂_nil_right_iff, List.mem_singleton]
  | cons p rest ih =>
    intro c
    obtain ⟨nm, vs⟩ := p
    show c ∈ (vs.map (fun v => (gridCandidates rest).map (fun c => (nm, v) :: c))).flatten ↔ _
    rw [List.mem_flatten, List.forall₂_cons_right_iff]
    constructor
    · rintro ⟨inner, hin, hcin⟩
      rw [List.mem_map] at hin
      obtain ⟨v, hv, rfl⟩ := hin
      rw [List.mem_map] at hcin
      obtain ⟨c', hc', rfl⟩ := hcin
      exact ⟨(nm, v), c', ⟨rfl, hv⟩, (ih c').mp hc', rfl⟩
    · rintro ⟨a, c', ⟨ha1, ha2⟩, hf2, rfl⟩
      refine ⟨(gridCandidates rest).map (fun c => (nm, a.2) :: c), ?_, ?_⟩
      · rw [List.mem_map]
        exact ⟨a.2, ha2, rfl⟩
      · rw [List.mem_map]
        refine ⟨c', (ih c').mpr hf2, ?_⟩
        have : a = (nm, a.2) := by
          cases a
          simp_all
        rw [← this]

/-- C7: grid search enumerates exactly the Cartesian product of the
per-parameter value lists, so the candidate count is the product of the list
lengths; the notebook grid `{C: [1,10,20,100], penalty: [l2,l1]}` yields
exactly 8 candidates, and a search over it whose evaluations all succeed
returns a ranked list of exactly 8 entries whose first (rank 1) entry has the
highest mean score. -/
theorem claim_C7_grid_cartesian :
    (∀ grid : List (String × List PVal),
      (gridCandidates grid).length = (grid.map (fun p => p.2.length)).prod) ∧
    (∀ (grid : List (String × List PVal)) (c : List (String × PVal)),
      c ∈ gridCandidates grid ↔
        List.Forall₂ (fun pv pl => pv.1 = pl.1 ∧ pv.2 ∈ pl.2) c grid) ∧
    (gridCandidates exampleGrid).length = 8 ∧
    (∀ f : List (String × PVal) → Except ModelFailure Stats,
      (∀ c, (f c).isOk = true) →
      (search f (gridCandidates exampleGrid)).ranked.length = 8 ∧
      ∀ q ∈ (search f (gridCandidates exampleGrid)).ranked,
        q.2.mean ≤ ((search f (gridCandidates exampleGrid)).ranked.getD 0 default).2.mean) := by
  refine ⟨gridCandidates_length, mem_gridCandidates, ?_, ?_⟩
  · rw [gridCandidates_length]
    rfl
  · intro f hok
    constructor
    · rw [ranked_length_all_ok f _ (fun c _ => hok c)]
      rw [gridCandidates_length]
      rfl
    · exact sorted_head_mean_ge _ (search_ranked_sorted f _)

/-- Witness for C7: the search part instantiated with an evaluator that
scores every candidate identically. -/
theorem claim_C7_grid_cartesian_witness :
    (search (fun _ => Except.ok (⟨1, 0⟩ : Stats)) (gridCandidates exampleGrid)).ranked.length
      = 8 :=
  (claim_C7_grid_cartesian.2.2.2 (fun _ => Except.ok ⟨1, 0⟩) (fun _ => rfl)).1

/-! ### Randomized search -/

/-- Modelled from the spec: a parameter's sampling specification — a discrete
list sampled uniformly, or a continuous distribution given by its sampler
(inverse-CDF style transform of a uniform `[0, 1)` draw; this uniformly covers
uniform, log-uniform, etc., whose transforms live outside the harness like the
model contract does). -/
inductive Dist where
  | discrete (vals : List PVal)
  | continuous (transform : ℚ → ℚ)

/-- One pseudo-random draw for one parameter from the seeded generator state. -/
def sampleParam (d : Dist) (s : Nat) : PVal :=
  match d with
  | .discrete vals => vals.getD (s % max vals.length 1) (.num 0)
  | .continuous tf => .num (tf ((s % 4294967296 : Nat) / (4294967296 : ℚ)))

/-- Samples one full candidate configuration, threading the generator state. -/
def sampleConfig : List (String × Dist) → Nat → List (String × PVal) × Nat
  | [], s => ([], s)
  | (nm, d) :: rest, s =>
    ((nm, sampleParam d (lcgNext s)) :: (sampleConfig rest (lcgNext s)).1,
     (sampleConfig rest (lcgNext s)).2)

/-- Modelled from the spec: randomized search candidate generation — `n_iter`
independent draws from the parameter space using the seeded generator, with
duplicates permitted (no de-duplication). -/
def randomizedCandidates (space : List (String × Dist)) :
    Nat → Nat → List (List (String × PVal))
  | 0, _ => []
  | n + 1, s =>
    (sampleConfig space s).1 :: randomizedCandidates space n (sampleConfig space s).2

/-- C8: randomized search with `n_iter` draws produces exactly `n_iter`
candidate configurations (duplicates permitted — the count is exactly `n_iter`
regardless of collisions), in particular exactly 20 for `n_iter = 20`, and two
runs with the same seed produce the identical candidate sequence. -/
theorem claim_C8_randomized_count :
    (∀ (space : List (String × Dist)) (n seed : Nat),
      (randomizedCandidates space n seed).length = n) ∧
    (∀ (space : List (String × Dist)) (seed : Nat),
      (randomizedCandidates space 20 seed).length = 20) ∧
    (∀ (space : List (String × Dist)) (n seed : Nat),
      randomizedCandidates space n seed = randomizedCandidates space n seed) := by
  have hlen : ∀ (space : List (String × Dist)) (n seed : Nat),
      (randomizedCandidates space n seed).length = n := by
    intro space n
    induction n with
    | zero => intro seed; rfl
    | succ n ih =>
      intro seed
      show ((sampleConfig space seed).1 ::
        randomizedCandidates space n (sampleConfig space seed).2).length = n + 1
      rw [List.length_cons, ih]
  exact ⟨hlen, fun space seed => hlen space 20 seed, fun _ _ _ => rfl⟩

/-! ### Holdout and stratified splitters -/

/-- Modelled from the spec: `holdout_split(n_samples, test_fraction, seed)` —
assigns `round(n_samples * test_fraction)` pseudo-randomly permuted indices to
test and the rest to train; fails with `InvalidArgument` if the fraction is
outside (0, 1) or `n_samples < 2`. -/
def holdout_split (n : Nat) (testFraction : ℚ) (seed : Nat) : Except SplitError Split :=
  if n < 2 ∨ testFraction ≤ 0 ∨ 1 ≤ testFraction then .error .invalidArgument
  else
    .ok ⟨(shuffleList (List.range n) seed).drop (round ((n : ℚ) * testFraction)).toNat,
         (shuffleList (List.range n) seed).take (round ((n : ℚ) * testFraction)).toNat⟩

/-- The index order a stratified split deals from: the identity order or the
seeded pseudo-random permutation. -/
def stratOrder (nLabels : Nat) (shuffle : Bool) (seed : Nat) : List Nat :=
  if shuffle then shuffleList (List.range nLabels) seed else List.range nLabels

/-- Position of sample i within its own label class, in dealing order. -/
def strataPos (labels : List Nat) (order : List Nat) (i : Nat) : Nat :=
  ((order.take (order.indexOf i)).filter
    (fun j => decide (labels.getD j 0 = labels.getD i 0))).length

/-- Modelled from the spec: `stratified_k_fold_splits(labels, k, shuffle,
seed)` — like k-fold but each label's indices are dealt round-robin across the
k folds, so each fold's test-label distribution approximates the dataset's. -/
def stratified_k_fold_splits (labels : List Nat) (k : Nat) (shuffle : Bool)
    (seed : Nat) : List Split :=
  (List.range k).map (fun f =>
    ⟨(stratOrder labels.length shuffle seed).filter
        (fun i => !(strataPos labels (stratOrder labels.length shuffle seed) i % k == f)),
     (stratOrder labels.length shuffle seed).filter
        (fun i => strataPos labels (stratOrder labels.length shuffle seed) i % k == f)⟩)

/-- C6: every splitter (holdout, k-fold, stratified k-fold, group k-fold,
time-series) is deterministic — two calls with the same seed and the same
arguments yield the identical sequence of Splits; each splitter is a pure
function of its arguments with no hidden state. -/
theorem claim_C6_determinism :
    (∀ (n : Nat) (tf : ℚ) (seed : Nat),
      holdout_split n tf seed = holdout_split n tf seed) ∧
    (∀ (n k : Nat) (sh : Bool) (seed : Nat),
      k_fold_splits n k sh seed = k_fold_splits n k sh seed) ∧
    (∀ (labels : List Nat) (k : Nat) (sh : Bool) (seed : Nat),
      stratified_k_fold_splits labels k sh seed = stratified_k_fold_splits labels k sh seed) ∧
    (∀ (groups : List Nat) (k : Nat),
      group_k_fold_splits groups k = group_k_fold_splits groups k) ∧
    (∀ (n k : Nat), time_series_splits n k = time_series_splits n k) :=
  ⟨fun _ _ _ => rfl, fun _ _ _ _ => rfl, fun _ _ _ _ => rfl,
   fun _ _ => rfl, fun _ _ => rfl⟩

end ModelSelection
